import Mathlib

/-!
Shallow embedding of the path relocation engine of `builtin/mv.c` (`git mv`):
the classification loop that turns (source, destination) pairs into a work
list (expanding directories, collecting sparse advisories, rejecting bad
pairs) and the apply phase that renames paths on disk and rewrites index
entries, followed by a single index persist.

Paths are modelled as Lean `String`s compared bytewise (ASCII), the working
tree as an association list from paths to file kinds, and the index as a
list of entries ordered by (name, stage).  External collaborators (sparse
predicate, gitfile reader, `.gitmodules` helpers, checkout and persistence
primitives) are fields of a configuration record, following the interface
contracts of the surrounding system.
-/

namespace GitMv

/-! ## String primitives

The C code compares paths with `memcmp`/`strncmp`; we model this with
character-list comparisons so that every condition is an executable `Bool`.
-/

/-- Lexicographic strict order on character lists (bytewise `memcmp < 0`). -/
def charsLt : List Char → List Char → Bool
  | [], [] => false
  | [], _ :: _ => true
  | _ :: _, [] => false
  | a :: as, b :: bs => a < b || (a == b && charsLt as bs)

/-- Lexicographic strict order on strings. -/
def strLt (s t : String) : Bool := charsLt s.data t.data

/-- Character-list version of `strncmp(p, q, |p|) == 0`: `p` starts `q`. -/
def charsPre : List Char → List Char → Bool
  | [], _ => true
  | _ :: _, [] => false
  | a :: as, b :: bs => a == b && charsPre as bs

/-- String `s` is a (not necessarily strict) starting segment of `t`. -/
def strPre (s t : String) : Bool := charsPre s.data t.data

/-- Number of characters of a string. -/
def strLen (s : String) : Nat := s.data.length

/-- Drop the first `n` characters of a string. -/
def strDrop (s : String) (n : Nat) : String := ⟨s.data.drop n⟩

/-- Whether the last character is the path separator
(`is_dir_sep(dst[strlen(dst) - 1])`). -/
def endsSlash (s : String) : Bool := s.data.getLast? == some '/'

/-- Case-insensitive equality, modelling `strcasecmp(src, dst) == 0`. -/
def lowEq (s t : String) : Bool :=
  s.data.map Char.toLower == t.data.map Char.toLower

/-- Model of `add_slash`: append `/` unless the path already ends with one. -/
def addSlash (p : String) : String := if endsSlash p then p else p ++ "/"

/-- Model of `basename` applied to a path whose trailing slashes were
stripped: the last nonempty `/`-separated component. -/
def lastComponent (s : String) : String :=
  ⟨((s.data.reverse.dropWhile (fun c => c == '/')).takeWhile
      (fun c => !(c == '/'))).reverse⟩

/-- The self-containment condition of `cmd_mv`:
`!strncmp(src, dst, length) && (dst[length] == 0 || dst[length] == '/')`,
i.e. the destination equals the source or continues it with a separator. -/
def subpathCond (src dst : String) : Bool :=
  dst == src || strPre (src ++ "/") dst

/-! ## Working tree model -/

/-- Kind of a working-tree object, as distinguished by `lstat` mode bits. -/
inductive FType where
  | reg
  | lnk
  | dir
  | oth
deriving DecidableEq, Repr

/-- The working tree: an association list from paths to file kinds.
`lstat` failure is modelled by absence. -/
abbrev Disk := List (String × FType)

/-- Model of `lstat`: the kind recorded for a path, if any. -/
def diskGet (d : Disk) (p : String) : Option FType :=
  match d.find? (fun e => e.fst == p) with
  | some e => some e.snd
  | none => none

/-- Model of the `rename(2)` contract assumed by the apply phase: fails when
the source is absent; otherwise relocates the source and its whole subtree
to the destination, dropping anything previously at the destination. -/
def renameFS (d : Disk) (src dst : String) : Option Disk :=
  match diskGet d src with
  | none => none
  | some _ => some (d.filterMap (fun e =>
      if e.fst == src then some (dst, e.snd)
      else if strPre (src ++ "/") e.fst then
        some (dst ++ strDrop e.fst (strLen src), e.snd)
      else if e.fst == dst || strPre (dst ++ "/") e.fst then none
      else some e))

/-- Model of the checkout primitive writing a file at a path. -/
def diskSet (d : Disk) (p : String) (t : FType) : Disk :=
  (p, t) :: d.filter (fun e => !(e.fst == p))

/-! ## Index model -/

/-- An index entry: path, object id, file mode, conflict stage and the
skip-worktree (sparse) flag. -/
structure Entry where
  name : String
  oid : Nat
  emode : Nat
  stage : Nat
  skipWT : Bool
deriving DecidableEq, Repr, Inhabited

/-- Mode bits of a gitlink (submodule) entry, `S_ISGITLINK`. -/
def gitlinkMode : Nat := 57344

/-- Model of `cache_name_pos`: the position of the stage-0 entry with the
given name, or `-(insertion point) - 1` when absent. -/
def cacheNamePos (idx : List Entry) (s : String) : Int :=
  match idx.findIdx? (fun e => e.name == s && e.stage == 0) with
  | some i => Int.ofNat i
  | none => -(Int.ofNat (idx.filter (fun e => strLt e.name s)).length) - 1

/-- Model of `cache_file_exists` (case-sensitive): the first entry with the
given name, at any stage. -/
def fileExists (idx : List Entry) (s : String) : Option Entry :=
  idx.find? (fun e => e.name == s)

/-- Model of `check_dir_in_index`: `false` exactly when the directory is
present in the index only through skip-worktree descendants. -/
def checkDirInIndex (idx : List Entry) (name : String) : Bool :=
  let ws := addSlash name
  let pos := cacheNamePos idx ws
  if pos < 0 then
    match idx.get? (-pos - 1).toNat with
    | none => true
    | some ce =>
      if !(strPre ws ce.name) then true
      else if ce.skipWT then false
      else true
  else true

/-- Ordering key used by the index: name, then stage. -/
def entLt (a b : Entry) : Bool :=
  strLt a.name b.name || (a.name == b.name && a.stage < b.stage)

/-- Sorted insertion into the index, replacing an entry with the same
(name, stage) key; models `add_index_entry` with `ADD_CACHE_OK_TO_REPLACE`. -/
def insertEntry (e : Entry) : List Entry → List Entry
  | [] => [e]
  | x :: xs =>
    if entLt x e then x :: insertEntry e xs
    else if x.name == e.name && x.stage == e.stage then e :: xs
    else e :: x :: xs

/-- Locate and remove the first stage-0 entry with the given name, returning
it together with the remaining list; models `cache_name_pos` followed by
`remove_index_entry_at`. -/
def eraseExtract (src : String) : List Entry → Option (Entry × List Entry)
  | [] => none
  | x :: xs =>
    if x.name == src && x.stage == 0 then some (x, xs)
    else match eraseExtract src xs with
      | none => none
      | some (e, r) => some (e, x :: r)

/-- Model of `rename_cache_entry_at`: remove the stage-0 entry at the source
path and re-insert it, renamed, at its sorted position.  `none` models the
case in which `cache_name_pos` returns a negative position (the `assert` in
`cmd_mv`). -/
def renameInIndex (idx : List Entry) (src dst : String) : Option (List Entry) :=
  match eraseExtract src idx with
  | none => none
  | some (e, r) => some (insertEntry { e with name := dst } r)

/-! ## Work items and configuration -/

/-- The `enum update_mode` bitmask of `cmd_mv`, as a record of flags.
`idxOnly` is the `INDEX` bit. -/
structure UMode where
  workingDirectory : Bool := false
  idxOnly : Bool := false
  sparse : Bool := false
  skipWorktreeDir : Bool := false
deriving DecidableEq, Repr, Inhabited

/-- One pending relocation: a slice through the parallel arrays
`source`, `destination`, `modes`, `submodule_gitfile` of `cmd_mv`.
`subGitfile = some (some c)` models a gitfile with contents `c`,
`subGitfile = some none` models `SUBMODULE_WITH_GITDIR`.
`recorded` is proof instrumentation only: it marks, without influencing any
behaviour, the items whose destination was inserted into `src_for_dst`. -/
structure Item where
  src : String
  dst : String
  mode : UMode := {}
  subGitfile : Option (Option String) := none
  recorded : Bool := false
deriving DecidableEq, Repr, Inhabited

/-- Command-line flags plus the external collaborators of the engine. -/
structure Cfg where
  verbose : Bool := false
  showOnly : Bool := false
  force : Bool := false
  ignoreErrors : Bool := false
  ignoreSparse : Bool := false
  ignoreCase : Bool := false
  inCone : String → Bool := fun _ => true
  gitmodulesOk : Bool := true
  readGitfile : String → Option String := fun _ => none
  gitmodulesUpdateOk : Bool := true
  checkoutOk : Bool := true
  persistOk : Bool := true

/-- Fatal outcomes: `die` with a message, the `assert(pos >= 0)` failure in
the apply phase, and exhaustion of the classification fuel. -/
inductive Fatal where
  | die (msg : String)
  | assertFail
  | outOfFuel
deriving DecidableEq, Repr

/-- Result of classifying a single (source, destination) pair.
`keep` carries the (possibly re-moded) item, the directory-expansion items
appended to the end of the work list, whether the destination is recorded in
`src_for_dst`, advisory ledger entries, and verbose warnings.
`rejectBad` is a structural rejection (`bad` set, honours ignore-errors),
`dropSparse` is the final sparse-cone removal, and `fatal` is an immediate
`die`. -/
inductive StepRes where
  | keep (it : Item) (expansion : List Item) (sfdAdd : Bool)
      (advisory : List String) (warn : List String)
  | rejectBad (msg : String) (warn : List String)
  | dropSparse (advisory : List String)
  | fatal (f : Fatal)
deriving DecidableEq, Repr

/-! ## Classification -/

/-- Model of `index_range_of_same_dir`: the contiguous index range of
entries under `src/`, starting at the insertion point of `src/`; dies when
`src/` itself is an index entry. -/
def indexRangeOfSameDir (idx : List Entry) (src : String) :
    Except Fatal (Nat × Nat) :=
  let ws := addSlash src
  let pos := cacheNamePos idx ws
  if 0 ≤ pos then Except.error (Fatal.die "is in index")
  else
    let first := (-pos - 1).toNat
    let cnt := ((idx.drop first).takeWhile (fun e => strPre ws e.name)).length
    Except.ok (first, first + cnt)

/-- Expansion of a directory source: one item per contained index entry,
with destination `dstS ++ (entry suffix after src/)` via `prefix_path`, and
mode `SPARSE` or `INDEX` from the entry's skip-worktree flag. -/
def expandItems (idx : List Entry) (src dstS : String) (first cnt : Nat) :
    List Item :=
  ((idx.drop first).take cnt).map (fun e =>
    { src := e.name
      dst := dstS ++ strDrop e.name (strLen src + 1)
      mode := if e.skipWT then { sparse := true } else { idxOnly := true }
      subGitfile := none
      recorded := false })

/-- The `dir_check` block of `cmd_mv`: submodule preparation when the
directory is itself a (gitlink) index entry, otherwise directory expansion;
an empty range is the `source directory is empty` rejection. -/
def dirCheckStep (cfg : Cfg) (idx : List Entry) (it : Item) (mode2 : UMode) :
    StepRes :=
  let pos := cacheNamePos idx it.src
  if 0 ≤ pos then
    match idx.get? pos.toNat with
    | none => StepRes.fatal (Fatal.die "Directory is in index and no submodule?")
    | some ce =>
      if !(ce.emode == gitlinkMode) then
        StepRes.fatal (Fatal.die "Directory is in index and no submodule?")
      else if !cfg.gitmodulesOk then
        StepRes.fatal (Fatal.die "Please stage your changes to .gitmodules or stash them to proceed")
      else
        StepRes.keep
          { it with
            mode := mode2
            subGitfile := some (cfg.readGitfile (it.src ++ "/.git")) }
          [] false [] []
  else
    match indexRangeOfSameDir idx it.src with
    | Except.error f => StepRes.fatal f
    | Except.ok (first, last) =>
      if last - first < 1 then StepRes.rejectBad "source directory is empty" []
      else
        StepRes.keep
          { it with mode := { mode2 with workingDirectory := true } }
          (expandItems idx it.src (addSlash it.dst) first (last - first))
          false [] []

/-- The duplicate-destination, trailing-separator and final sparse-cone
checks at the end of the single-file path, ending in acceptance. -/
def lateChecks (cfg : Cfg) (sfd : List String) (it : Item) : StepRes :=
  if sfd.contains it.dst then
    StepRes.rejectBad "multiple sources for the same target" []
  else if endsSlash it.dst then
    StepRes.rejectBad "destination directory does not exist" []
  else
    let adv1 := if !cfg.ignoreSparse && !cfg.inCone it.src then [it.src] else []
    let adv2 := if !cfg.ignoreSparse && !cfg.inCone it.dst then [it.dst] else []
    if (adv1 ++ adv2).isEmpty then
      StepRes.keep { it with recorded := true } [] true [] []
    else StepRes.dropSparse (adv1 ++ adv2)

/-- The single-file path of the classification: tracked at stage 0, then
the on-disk destination check with the force/overwrite rules, then
`lateChecks`. -/
def singleFileCase (cfg : Cfg) (idx : List Entry) (disk : Disk)
    (sfd : List String) (it : Item) : StepRes :=
  match fileExists idx it.src with
  | none => StepRes.rejectBad "not under version control" []
  | some ce =>
    if !(ce.stage == 0) then StepRes.rejectBad "conflicted" []
    else
      match diskGet disk it.dst with
      | some dt =>
        if !cfg.ignoreCase || !(lowEq it.src it.dst) then
          if cfg.force then
            if dt == FType.reg || dt == FType.lnk then
              StepRes.keep it [] false []
                (if cfg.verbose then ["overwriting"] else [])
            else StepRes.rejectBad "Cannot overwrite" []
          else StepRes.rejectBad "destination exists" []
        else lateChecks cfg sfd it
      | none => lateChecks cfg sfd it

/-- The branch of the classification taken when `lstat(src)` fails: sparse
placeholders, skip-worktree directories, and skip-worktree sources with
their advisory / destination-slot handling. -/
def missingSrcCase (cfg : Cfg) (idx : List Entry) (it : Item) : StepRes :=
  let pos := cacheNamePos idx it.src
  if pos < 0 then
    if !(cfg.inCone (addSlash it.src)) && !(checkDirInIndex idx it.src) then
      dirCheckStep cfg idx it { it.mode with skipWorktreeDir := true }
    else if !it.mode.sparse then StepRes.rejectBad "bad source" []
    else StepRes.keep it [] false [] []
  else
    match idx.get? pos.toNat with
    | none => StepRes.rejectBad "bad source" []
    | some ce =>
      if !ce.skipWT then StepRes.rejectBad "bad source" []
      else if !cfg.ignoreSparse then StepRes.keep it [] false [it.src] []
      else if cacheNamePos idx it.dst < 0 then
        StepRes.keep { it with mode := { it.mode with sparse := true } } [] false [] []
      else if !cfg.force then StepRes.rejectBad "destination exists" []
      else StepRes.keep { it with mode := { it.mode with sparse := true } } [] false [] []

/-- Classification of one (source, destination) pair, following the body of
the checking loop of `cmd_mv` in source order. -/
def classifyOne (cfg : Cfg) (idx : List Entry) (disk : Disk)
    (sfd : List String) (it : Item) : StepRes :=
  match diskGet disk it.src with
  | none => missingSrcCase cfg idx it
  | some t =>
    if subpathCond it.src it.dst then
      StepRes.rejectBad "can not move directory into itself" []
    else if t == FType.dir && (diskGet disk it.dst).isSome then
      StepRes.rejectBad "cannot move directory over file" []
    else if t == FType.dir then dirCheckStep cfg idx it it.mode
    else singleFileCase cfg idx disk sfd it

/-! ## The checking loop -/

/-- State of the checking loop: already classified items, remaining items,
the `src_for_dst` seen-destinations list and the
`only_match_skip_worktree` advisory ledger. -/
structure CState where
  done : List Item := []
  todo : List Item := []
  sfd : List String := []
  ledger : List String := []
deriving DecidableEq, Repr, Inhabited

/-- Model of `string_list_insert`: add a string unless already present. -/
def insertStr (l : List String) (s : String) : List String :=
  if l.contains s then l else s :: l

/-- The checking loop of `cmd_mv`: classify the head of the work list,
append any directory expansion at the end (array growth), drop rejected
items (the `remove_entry` compaction) unless a structural rejection must
die, and collect advisories.  Fuel-indexed; `outOfFuel` is returned when
fuel runs out before the work list is drained. -/
def classifyLoop (cfg : Cfg) (idx : List Entry) (disk : Disk) :
    Nat → CState → Except Fatal CState
  | _, ⟨done, [], sfd, led⟩ => Except.ok ⟨done, [], sfd, led⟩
  | 0, _ => Except.error Fatal.outOfFuel
  | fuel + 1, ⟨done, it :: rest, sfd, led⟩ =>
    match classifyOne cfg idx disk sfd it with
    | StepRes.keep it2 exp sfdAdd adv _warn =>
      classifyLoop cfg idx disk fuel
        ⟨done ++ [it2], rest ++ exp,
          if sfdAdd then insertStr sfd it2.dst else sfd, led ++ adv⟩
    | StepRes.rejectBad msg _warn =>
      if cfg.ignoreErrors then
        classifyLoop cfg idx disk fuel ⟨done, rest, sfd, led⟩
      else Except.error (Fatal.die msg)
    | StepRes.dropSparse adv =>
      classifyLoop cfg idx disk fuel ⟨done, rest, sfd, led ++ adv⟩
    | StepRes.fatal f => Except.error f

/-! ## The apply phase -/

/-- Mutable state of the apply phase: working tree, index, and whether
`.gitmodules` was modified. -/
structure AState where
  disk : Disk
  idxL : List Entry
  gitmodulesModified : Bool := false
deriving DecidableEq, Repr

/-- Apply one surviving work item: working-tree rename (skipped for
index-only, sparse and skip-worktree-directory items; a failure is fatal
unless ignore-errors, which then skips the rest of this item), submodule
bookkeeping, index path rewrite, and sparse promotion with checkout. -/
def applyOne (cfg : Cfg) (st : AState) (it : Item) : Except Fatal AState :=
  if cfg.showOnly then Except.ok st
  else
    let renamed : Option Disk :=
      if !(it.mode.idxOnly || it.mode.sparse || it.mode.skipWorktreeDir) then
        renameFS st.disk it.src it.dst
      else some st.disk
    match renamed with
    | none =>
      if cfg.ignoreErrors then Except.ok st
      else Except.error (Fatal.die "renaming failed")
    | some disk2 =>
      let gm2 := st.gitmodulesModified ||
        (it.subGitfile.isSome && cfg.gitmodulesUpdateOk)
      if it.mode.workingDirectory || it.mode.skipWorktreeDir then
        Except.ok { disk := disk2, idxL := st.idxL, gitmodulesModified := gm2 }
      else
        match renameInIndex st.idxL it.src it.dst with
        | none => Except.error Fatal.assertFail
        | some idx2 =>
          if it.mode.sparse && cfg.inCone it.dst then
            match idx2.findIdx? (fun e => e.name == it.dst && e.stage == 0) with
            | none =>
              Except.ok { disk := disk2, idxL := idx2, gitmodulesModified := gm2 }
            | some p =>
              match idx2.get? p with
              | none =>
                Except.ok { disk := disk2, idxL := idx2, gitmodulesModified := gm2 }
              | some e =>
                let idx3 := idx2.set p { e with skipWT := false }
                if cfg.checkoutOk then
                  Except.ok
                    { disk := diskSet disk2 it.dst FType.reg, idxL := idx3,
                      gitmodulesModified := gm2 }
                else Except.error (Fatal.die "cannot checkout")
          else
            Except.ok { disk := disk2, idxL := idx2, gitmodulesModified := gm2 }

/-- Apply every surviving work item in list order, stopping at the first
fatal outcome. -/
def applyAll (cfg : Cfg) : List Item → AState → Except Fatal AState
  | [], st => Except.ok st
  | it :: rest, st =>
    match applyOne cfg st it with
    | Except.error f => Except.error f
    | Except.ok st2 => applyAll cfg rest st2

/-! ## The full pipeline -/

/-- Final observable outcome of a `cmd_mv` run that did not die. -/
structure Outcome where
  exitCode : Nat
  disk : Disk
  idxL : List Entry
  ledger : List String
  hint : Bool
deriving DecidableEq, Repr

/-- Run the engine from an arbitrary checking-loop state: finish the
checking loop, then the consolidated sparse advisory (returning exit
status 1 before any mutation unless ignore-errors), then the apply phase
and the final index persist (whose failure is fatal regardless of flags). -/
def runFromState (cfg : Cfg) (idx : List Entry) (disk : Disk) (fuel : Nat)
    (st0 : CState) : Except Fatal Outcome :=
  match classifyLoop cfg idx disk fuel st0 with
  | Except.error f => Except.error f
  | Except.ok st =>
    if !st.ledger.isEmpty && !cfg.ignoreErrors then
      Except.ok
        { exitCode := 1, disk := disk, idxL := idx, ledger := st.ledger,
          hint := true }
    else
      match applyAll cfg st.done { disk := disk, idxL := idx } with
      | Except.error f => Except.error f
      | Except.ok ast =>
        if !cfg.persistOk then
          Except.error (Fatal.die "Unable to write new index file")
        else
          Except.ok
            { exitCode := 0, disk := ast.disk, idxL := ast.idxL,
              ledger := st.ledger, hint := !st.ledger.isEmpty }

/-- Run the engine on a freshly-built initial work list. -/
def runFromItems (cfg : Cfg) (idx : List Entry) (disk : Disk) (fuel : Nat)
    (items : List Item) : Except Fatal Outcome :=
  runFromState cfg idx disk fuel ⟨[], items, [], []⟩

/-- The destination-building step of `cmd_mv` (after pathspec prefixing):
an empty destination re-uses source basenames, an existing on-disk
directory destination gets one destination per source under it, and any
other destination with several sources dies with
`destination is not a directory`. -/
def computeDests (disk : Disk) (sources : List String) (dp : String) :
    Except Fatal (List String) :=
  if dp == "" then Except.ok (sources.map lastComponent)
  else if diskGet disk dp == some FType.dir then
    Except.ok (sources.map (fun s => addSlash dp ++ lastComponent s))
  else if !(sources.length == 1) then
    Except.error (Fatal.die "destination is not a directory")
  else Except.ok [dp]

/-- The whole engine: build destinations, pair them with the sources into
fresh work items, and run classification plus apply. -/
def runMv (cfg : Cfg) (idx : List Entry) (disk : Disk) (fuel : Nat)
    (sources : List String) (dp : String) : Except Fatal Outcome :=
  match computeDests disk sources dp with
  | Except.error f => Except.error f
  | Except.ok dests =>
    runFromItems cfg idx disk fuel
      (sources.zipWith (fun s d => { src := s, dst := d : Item }) dests)

deriving instance DecidableEq for Except

/-! ## Derived notions used by the statements -/

/-- Destinations of the work items whose destination was recorded in the
`src_for_dst` seen-destinations list. -/
def recordedDests (l : List Item) : List String :=
  (l.filter (fun it => it.recorded)).map (fun it => it.dst)

/-- Strict sub-path in the sense of the specification text: the destination
lies strictly below the source directory (modelled from the spec words
"destination must not be a strict sub-path of source", for comparison with
the `subpathCond` test of the source). -/
def specStrictSubPath (src dst : String) : Bool :=
  strPre (src ++ "/") dst && !(dst == src ++ "/")

/-- Names of an index, in order. -/
def idxNames (idx : List Entry) : List String := idx.map Entry.name

/-- Index sorted strictly by name (a clean index without duplicate paths,
the form in which the ordered-range directory lookup operates). -/
def SortedIdx (idx : List Entry) : Prop :=
  List.Pairwise (fun a b => strLt a.name b.name = true) idx

/-! ## Concrete instances used by counterexamples and witnesses -/

/-- Configuration with ignore-errors set, everything else default. -/
def cfgK : Cfg := { ignoreErrors := true }

/-- Configuration with the sparse-allow flag set. -/
def cfgSparse : Cfg := { ignoreSparse := true }

/-- Index for the ignore-errors scenario: a single tracked file `a`. -/
def idxA : List Entry := [⟨"a", 7, 33188, 0, false⟩]

/-- Disk for the ignore-errors scenario: file `a` and directory `t`. -/
def diskAT : Disk := [("a", FType.reg), ("t", FType.dir)]

/-- Index with two skip-worktree files sharing a basename. -/
def idxTwoSparse : List Entry :=
  [⟨"p/f", 1, 33188, 0, true⟩, ⟨"q/f", 2, 33188, 0, true⟩]

/-- Disk holding only the destination directory `t`. -/
def diskT : Disk := [("t", FType.dir)]

/-- Index with a single skip-worktree file `s`. -/
def idxSparseS : List Entry := [⟨"s", 1, 33188, 0, true⟩]

/-- Index with two files under directory `d`. -/
def idxDirTwo : List Entry :=
  [⟨"d/a", 1, 33188, 0, false⟩, ⟨"d/b", 2, 33188, 0, true⟩]

/-- Work item moving directory `d` to `x`. -/
def itD : Item := { src := "d", dst := "x" }

/-- Classified state produced by the two-sparse-sources scenario. -/
def stC2 : CState :=
  { done := [{ src := "p/f", dst := "t/f", mode := { sparse := true } },
             { src := "q/f", dst := "t/f", mode := { sparse := true } }] }

/-- Configuration whose sparse predicate puts every path outside the cone,
with the sparse-allow flag off. -/
def cfgOutCone : Cfg := { inCone := fun _ => false }

/-- Configuration with force and verbose set. -/
def cfgForceV : Cfg := { force := true, verbose := true }

/-- Index for the apply-phase assertion scenario: one file under a nested
directory. -/
def idxNested : List Entry := [⟨"d/sub/f", 1, 33188, 0, false⟩]

/-- Disk for the apply-phase assertion scenario: nested directories `d` and
`d/sub` with the file, plus the destination directory. -/
def diskNested : Disk :=
  [("d", FType.dir), ("d/sub", FType.dir), ("d/sub/f", FType.reg),
   ("dest", FType.dir)]

/-! ## Theorems -/

/-- C10: with ignore-errors set, moving the overlapping directory sources
`d` and `d/sub` into `dest` makes the apply phase look up `d/sub/f` in the
index a second time after it has already been renamed, so the code reaches
`rename_cache_entry_at` with a negative position: the `assert(pos >= 0)`
fails.  The model evaluates the whole run at this input to the assertion
failure. -/
theorem mv_apply_assert_failure :
    runMv cfgK idxNested diskNested 10 ["d", "d/sub"] "dest" =
      Except.error Fatal.assertFail := by rfl

/-- C1 counterexample: with ignore-errors, the pair `b → t/b` is
structurally rejected (`bad source`) among otherwise valid pairs, the other
move `a → t/a` succeeds, and the final exit status is 0, not non-zero as
claimed. -/
theorem mv_ignore_errors_exit_zero_cx :
    classifyOne cfgK idxA diskAT ["t/a"] { src := "b", dst := "t/b" } =
      StepRes.rejectBad "bad source" [] ∧
    runMv cfgK idxA diskAT 10 ["a", "b"] "t" =
      Except.ok { exitCode := 0
                  disk := [("t/a", FType.reg), ("t", FType.dir)]
                  idxL := [⟨"t/a", 7, 33188, 0, false⟩]
                  ledger := []
                  hint := false } := by
  exact ⟨rfl, rfl⟩

/-- C2 counterexample: with the sparse-allow flag, two skip-worktree
sources aimed at the same destination `t/f` both survive classification
(no `multiple sources for the same target` rejection), so surviving
destinations are not unique. -/
theorem mv_duplicate_destination_sparse_cx :
    (classifyLoop cfgSparse idxTwoSparse diskT 10
        ⟨[], [{ src := "p/f", dst := "t/f" }, { src := "q/f", dst := "t/f" }],
          [], []⟩).map (fun st => (st.done.map Item.dst, st.ledger)) =
      Except.ok (["t/f", "t/f"], []) ∧
    ¬ ([("t/f" : String), "t/f"].Nodup) := by
  constructor
  · rfl
  · decide

/-- C4 counterexample: a skip-worktree source without the sparse-allow
flag is appended to the advisory ledger but the item is NOT removed from
the work list — it is still present among the classified items. -/
theorem mv_advisory_item_not_removed_cx :
    classifyLoop ({} : Cfg) idxSparseS [] 10
        ⟨[], [{ src := "s", dst := "t" }], [], []⟩ =
      Except.ok { done := [{ src := "s", dst := "t" }], todo := [], sfd := [],
                  ledger := ["s"] } := by rfl

/-- C7 counterexample: a pair whose destination equals its source is
rejected with `can not move directory into itself`, although the
destination is not a strict sub-path of the source. -/
theorem mv_self_containment_equal_path_cx :
    classifyOne ({} : Cfg) [] [("a", FType.reg)] [] { src := "a", dst := "a" } =
      StepRes.rejectBad "can not move directory into itself" [] ∧
    specStrictSubPath "a" "a" = false := by
  exact ⟨rfl, rfl⟩

/-- C9: with more than one source, a non-empty destination that is not an
on-disk directory makes the run die with `destination is not a directory`
before any classification or mutation. -/
theorem mv_multiple_sources_need_directory (cfg : Cfg) (idx : List Entry)
    (disk : Disk) (fuel : Nat) (sources : List String) (dp : String)
    (hn : 1 < sources.length) (hne : dp ≠ "")
    (hnd : diskGet disk dp ≠ some FType.dir) :
    runMv cfg idx disk fuel sources dp =
      Except.error (Fatal.die "destination is not a directory") := by
  have h1 : (dp == "") = false := beq_eq_false_iff_ne.mpr hne
  have h2 : (diskGet disk dp == some FType.dir) = false :=
    beq_eq_false_iff_ne.mpr hnd
  have h3 : (sources.length == 1) = false := by
    have h : sources.length ≠ 1 := by omega
    exact beq_eq_false_iff_ne.mpr h
  simp [runMv, computeDests, h1, h2, h3]

/-- Witness for C9 at a concrete input. -/
theorem mv_multiple_sources_need_directory_witness :
    runMv ({} : Cfg) [] [] 5 ["a", "b"] "z" =
      Except.error (Fatal.die "destination is not a directory") :=
  mv_multiple_sources_need_directory {} [] [] 5 ["a", "b"] "z" (by decide)
    (by decide) (by decide)

/-- C3: in the single-file path, a pair whose destination exists on disk
(under the case-sensitivity-aware comparison) is rejected with the hard
`destination exists` error without force — for every sparse predicate and
every seen-destination list, i.e. before the duplicate-destination,
trailing-separator and sparse-cone checks are ever consulted. -/
theorem mv_dest_exists_checked_before_sparse (cfg : Cfg) (idx : List Entry)
    (disk : Disk) (sfd : List String) (it : Item) (t : FType) (ce : Entry)
    (dt : FType)
    (hs : diskGet disk it.src = some t) (ht : t ≠ FType.dir)
    (hsub : subpathCond it.src it.dst = false)
    (hce : fileExists idx it.src = some ce) (hst : ce.stage = 0)
    (hd : diskGet disk it.dst = some dt)
    (hcase : (!cfg.ignoreCase || !(lowEq it.src it.dst)) = true)
    (hforce : cfg.force = false) :
    classifyOne cfg idx disk sfd it =
      StepRes.rejectBad "destination exists" [] := by
  have ht2 : (t == FType.dir) = false := beq_eq_false_iff_ne.mpr ht
  simp [classifyOne, hs, hsub, ht2, singleFileCase, hce, hst, hd, hcase,
    hforce]

/-- Witness for C3: a pair entirely outside the sparse cone, with the
sparse-allow flag off, whose destination exists on disk, is rejected with
`destination exists` — its sparse status never influences the outcome. -/
theorem mv_dest_exists_checked_before_sparse_witness :
    classifyOne cfgOutCone [⟨"a", 7, 33188, 0, false⟩]
        [("a", FType.reg), ("b", FType.reg)] [] { src := "a", dst := "b" } =
      StepRes.rejectBad "destination exists" [] :=
  mv_dest_exists_checked_before_sparse cfgOutCone [⟨"a", 7, 33188, 0, false⟩]
    [("a", FType.reg), ("b", FType.reg)] [] { src := "a", dst := "b" }
    FType.reg ⟨"a", 7, 33188, 0, false⟩ FType.reg rfl (by decide) rfl rfl rfl
    rfl rfl rfl

/-- C6: in the single-file path with an on-disk destination (under the
case-sensitivity-aware comparison): without force the pair is rejected
with `destination exists`; with force a regular-file or symlink
destination is overwritten (keeping the item, with a verbose warning) and
any other kind of destination is still rejected. -/
theorem mv_overwrite_rules (cfg : Cfg) (idx : List Entry) (disk : Disk)
    (sfd : List String) (it : Item) (t : FType) (ce : Entry) (dt : FType)
    (hs : diskGet disk it.src = some t) (ht : t ≠ FType.dir)
    (hsub : subpathCond it.src it.dst = false)
    (hce : fileExists idx it.src = some ce) (hst : ce.stage = 0)
    (hd : diskGet disk it.dst = some dt)
    (hcase : (!cfg.ignoreCase || !(lowEq it.src it.dst)) = true) :
    (cfg.force = false →
      classifyOne cfg idx disk sfd it =
        StepRes.rejectBad "destination exists" []) ∧
    (cfg.force = true → (dt = FType.reg ∨ dt = FType.lnk) →
      classifyOne cfg idx disk sfd it =
        StepRes.keep it [] false []
          (if cfg.verbose then ["overwriting"] else [])) ∧
    (cfg.force = true → dt ≠ FType.reg → dt ≠ FType.lnk →
      classifyOne cfg idx disk sfd it =
        StepRes.rejectBad "Cannot overwrite" []) := by
  have ht2 : (t == FType.dir) = false := beq_eq_false_iff_ne.mpr ht
  refine ⟨fun hf => ?_, fun hf hk => ?_, fun hf hk1 hk2 => ?_⟩
  · simp [classifyOne, hs, hsub, ht2, singleFileCase, hce, hst, hd, hcase, hf]
  · have hk2 : (dt == FType.reg || dt == FType.lnk) = true := by
      rcases hk with h | h <;> simp [h]
    simp [classifyOne, hs, hsub, ht2, singleFileCase, hce, hst, hd, hcase,
      hf, hk2]
  · have hk3 : (dt == FType.reg || dt == FType.lnk) = false := by
      simp [hk1, hk2]
    simp [classifyOne, hs, hsub, ht2, singleFileCase, hce, hst, hd, hcase,
      hf, hk3]

/-- Witness for C6 at a concrete input: force overwriting a regular-file
destination keeps the item with the verbose warning. -/
theorem mv_overwrite_rules_witness :
    classifyOne cfgForceV [⟨"a", 7, 33188, 0, false⟩]
        [("a", FType.reg), ("b", FType.reg)] [] { src := "a", dst := "b" } =
      StepRes.keep { src := "a", dst := "b" } [] false [] ["overwriting"] := by
  have h := (mv_overwrite_rules cfgForceV [⟨"a", 7, 33188, 0, false⟩]
    [("a", FType.reg), ("b", FType.reg)] [] { src := "a", dst := "b" }
    FType.reg ⟨"a", 7, 33188, 0, false⟩ FType.reg rfl (by decide) rfl rfl rfl
    rfl rfl).2.1 rfl (Or.inl rfl)
  simpa using h

/-- The directory branch never produces the self-containment message. -/
theorem dirCheckStep_no_self_msg (cfg : Cfg) (idx : List Entry) (it : Item)
    (m2 : UMode) :
    dirCheckStep cfg idx it m2 ≠
      StepRes.rejectBad "can not move directory into itself" [] := by
  intro hcon
  unfold dirCheckStep indexRangeOfSameDir at hcon
  by_cases hp : 0 ≤ cacheNamePos idx it.src
  · simp only [if_pos hp] at hcon
    rcases hg : idx.get? (cacheNamePos idx it.src).toNat with _ | ce <;>
        rw [hg] at hcon
    · simp at hcon
    · repeat' split at hcon
      all_goals simp at hcon
  · simp only [if_neg hp] at hcon
    repeat' split at hcon
    all_goals simp_all

/-- The single-file branch never produces the self-containment message. -/
theorem singleFileCase_no_self_msg (cfg : Cfg) (idx : List Entry)
    (disk : Disk) (sfd : List String) (it : Item) :
    singleFileCase cfg idx disk sfd it ≠
      StepRes.rejectBad "can not move directory into itself" [] := by
  intro hcon
  unfold singleFileCase lateChecks at hcon
  rcases hf : fileExists idx it.src with _ | ce <;> rw [hf] at hcon
  · simp at hcon
  · repeat' split at hcon
    all_goals simp_all

/-- C7 (amended): for a pair whose source exists on disk, classification
rejects it with `can not move directory into itself` exactly when the
destination equals the source or extends it across a path separator (the
`subpathCond` test). -/
theorem mv_self_containment_iff (cfg : Cfg) (idx : List Entry) (disk : Disk)
    (sfd : List String) (it : Item) (t : FType)
    (hs : diskGet disk it.src = some t) :
    (classifyOne cfg idx disk sfd it =
        StepRes.rejectBad "can not move directory into itself" [] ↔
      subpathCond it.src it.dst = true) := by
  constructor
  · intro h
    cases hb : subpathCond it.src it.dst
    · exfalso
      simp only [classifyOne] at h
      rw [hs] at h
      simp only [hb, Bool.false_eq_true, if_false] at h
      split at h
      · simp at h
      · split at h
        · exact dirCheckStep_no_self_msg cfg idx it it.mode h
        · exact singleFileCase_no_self_msg cfg idx disk sfd it h
    · rfl
  · intro hb
    simp [classifyOne, hs, hb]

/-- Witness for C7 at a concrete input: a destination strictly below the
source is rejected by the self-containment check. -/
theorem mv_self_containment_iff_witness :
    (classifyOne ({} : Cfg) [] [("a", FType.dir)] []
        { src := "a", dst := "a/b" } =
        StepRes.rejectBad "can not move directory into itself" [] ↔
      subpathCond "a" "a/b" = true) :=
  mv_self_containment_iff {} [] [("a", FType.dir)] []
    { src := "a", dst := "a/b" } FType.dir rfl

/-- C4 (amended): whenever classification completes with a non-empty
advisory ledger and ignore-errors is off, the run stops with exit status 1,
the consolidated hint, and the working tree and index exactly as they were:
no mutation has been applied. -/
theorem mv_advisories_block_before_mutation (cfg : Cfg) (idx : List Entry)
    (disk : Disk) (fuel : Nat) (st0 st : CState)
    (hrun : classifyLoop cfg idx disk fuel st0 = Except.ok st)
    (hled : st.ledger ≠ [])
    (hie : cfg.ignoreErrors = false) :
    runFromState cfg idx disk fuel st0 =
      Except.ok { exitCode := 1
                  disk := disk
                  idxL := idx
                  ledger := st.ledger
                  hint := true } := by
  have h1 : st.ledger.isEmpty = false := by
    cases h : st.ledger with
    | nil => exact absurd h hled
    | cons a l => rfl
  unfold runFromState
  rw [hrun]
  simp [h1, hie]

/-- Witness for C4 at a concrete input: one skip-worktree source, no
sparse-allow flag, no ignore-errors: exit 1, hint emitted, nothing
mutated. -/
theorem mv_advisories_block_before_mutation_witness :
    runFromState ({} : Cfg) idxSparseS [] 10
        ⟨[], [{ src := "s", dst := "t" }], [], []⟩ =
      Except.ok { exitCode := 1
                  disk := []
                  idxL := idxSparseS
                  ledger := ["s"]
                  hint := true } :=
  mv_advisories_block_before_mutation {} idxSparseS [] 10
    ⟨[], [{ src := "s", dst := "t" }], [], []⟩
    ⟨[{ src := "s", dst := "t" }], [], [], ["s"]⟩ rfl (by decide) rfl

/-- C1 (amended): with ignore-errors, a structurally rejected pair is
simply dropped: the run is identical to the run on the work list without
that pair (so the other moves all succeed exactly as they would have), and
any normally terminating run under ignore-errors has exit status 0 — the
skipped failure is not reflected in the exit status. -/
theorem mv_ignore_errors_skip_structural (cfg : Cfg) (idx : List Entry)
    (disk : Disk) (fuel : Nat) (done rest : List Item) (bad : Item)
    (sfd ledger : List String) (msg : String) (warn : List String)
    (hie : cfg.ignoreErrors = true)
    (hrej : classifyOne cfg idx disk sfd bad = StepRes.rejectBad msg warn) :
    runFromState cfg idx disk (fuel + 1) ⟨done, bad :: rest, sfd, ledger⟩ =
      runFromState cfg idx disk fuel ⟨done, rest, sfd, ledger⟩ ∧
    (∀ out, runFromState cfg idx disk fuel ⟨done, rest, sfd, ledger⟩ =
        Except.ok out → out.exitCode = 0) := by
  constructor
  · have hstep : classifyLoop cfg idx disk (fuel + 1)
        ⟨done, bad :: rest, sfd, ledger⟩ =
        classifyLoop cfg idx disk fuel ⟨done, rest, sfd, ledger⟩ := by
      rw [classifyLoop]
      simp [hrej, hie]
    unfold runFromState
    rw [hstep]
  · intro out hout
    unfold runFromState at hout
    cases hcl : classifyLoop cfg idx disk fuel ⟨done, rest, sfd, ledger⟩ with
    | error f => rw [hcl] at hout; simp at hout
    | ok st =>
      rw [hcl] at hout
      simp only [hie, Bool.not_true, Bool.and_false, Bool.false_eq_true,
        if_false] at hout
      cases hap : applyAll cfg st.done { disk := disk, idxL := idx } with
      | error f => rw [hap] at hout; simp at hout
      | ok ast =>
        rw [hap] at hout
        by_cases hpo : cfg.persistOk
        · simp [hpo] at hout
          rw [← hout]
        · simp [hpo] at hout

/-- Witness for C1 at a concrete input: with ignore-errors, dropping the
rejected pair `b → t/b` leaves the run on the valid pair unchanged, and a
normally terminating run exits 0. -/
theorem mv_ignore_errors_skip_structural_witness :
    (runFromState cfgK idxA diskAT 2
        ⟨[], [{ src := "b", dst := "t/b" }, { src := "a", dst := "t/a" }],
          [], []⟩ =
      runFromState cfgK idxA diskAT 1
        ⟨[], [{ src := "a", dst := "t/a" }], [], []⟩) ∧
    (∀ out, runFromState cfgK idxA diskAT 1
        ⟨[], [{ src := "a", dst := "t/a" }], [], []⟩ =
        Except.ok out → out.exitCode = 0) :=
  mv_ignore_errors_skip_structural cfgK idxA diskAT 1 []
    [{ src := "a", dst := "t/a" }] { src := "b", dst := "t/b" } [] []
    "bad source" [] rfl rfl

/-- Expansion items are never marked as recorded. -/
theorem expandItems_recorded (idx : List Entry) (src dstS : String)
    (first cnt : Nat) :
    ∀ j ∈ expandItems idx src dstS first cnt, j.recorded = false := by
  intro j hj
  simp only [expandItems, List.mem_map] at hj
  obtain ⟨e, _, rfl⟩ := hj
  rfl

theorem dirCheckStep_keep_facts (cfg : Cfg) (idx : List Entry) (it : Item)
    (m2 : UMode) (it2 : Item) (exp : List Item) (add : Bool)
    (adv w : List String)
    (h : dirCheckStep cfg idx it m2 = StepRes.keep it2 exp add adv w) :
    add = false ∧ it2.recorded = it.recorded ∧
      ∀ j ∈ exp, j.recorded = false := by
  unfold dirCheckStep indexRangeOfSameDir at h
  by_cases hp : 0 ≤ cacheNamePos idx it.src
  · simp only [if_pos hp] at h
    rcases hg : idx.get? (cacheNamePos idx it.src).toNat with _ | ce <;>
        rw [hg] at h
    · simp at h
    · repeat' split at h
      all_goals (try (exfalso; simp at h; done))
      all_goals (
        simp only [StepRes.keep.injEq] at h
        obtain ⟨h1, h2, h3, h4, h5⟩ := h
        subst h1 h2 h3
        exact ⟨rfl, rfl, by simp⟩)
  · simp only [if_neg hp] at h
    repeat' split at h
    all_goals (try (exfalso; simp at h; done))
    all_goals (
      simp only [StepRes.keep.injEq] at h
      obtain ⟨h1, h2, h3, h4, h5⟩ := h
      subst h1 h2 h3
      exact ⟨rfl, rfl, expandItems_recorded _ _ _ _ _⟩)


theorem singleFileCase_keep_facts (cfg : Cfg) (idx : List Entry)
    (disk : Disk) (sfd : List String) (it : Item) (it2 : Item)
    (exp : List Item) (add : Bool) (adv w : List String)
    (h : singleFileCase cfg idx disk sfd it = StepRes.keep it2 exp add adv w) :
    (add = true → it2.recorded = true ∧ it2.dst = it.dst ∧
      sfd.contains it.dst = false) ∧
    (add = false → it2.recorded = it.recorded) ∧ exp = [] := by
  unfold singleFileCase lateChecks at h
  rcases hf : fileExists idx it.src with _ | ce <;> simp only [hf] at h
  · simp at h
  · repeat' split at h
    all_goals (try (exfalso; simp at h; done))
    all_goals simp only [StepRes.keep.injEq] at h
    all_goals obtain ⟨h1, h2, h3, h4, h5⟩ := h
    all_goals subst h1 h2 h3
    all_goals (refine ⟨fun hadd => ?_, fun hadd => ?_, rfl⟩ <;> simp_all)

theorem missingSrcCase_keep_facts (cfg : Cfg) (idx : List Entry) (it : Item)
    (it2 : Item) (exp : List Item) (add : Bool) (adv w : List String)
    (h : missingSrcCase cfg idx it = StepRes.keep it2 exp add adv w) :
    add = false ∧ it2.recorded = it.recorded ∧
      ∀ j ∈ exp, j.recorded = false := by
  unfold missingSrcCase at h
  by_cases hp : cacheNamePos idx it.src < 0
  · simp only [if_pos hp] at h
    split at h
    · exact dirCheckStep_keep_facts _ _ _ _ _ _ _ _ _ h
    · split at h
      · simp at h
      · simp only [StepRes.keep.injEq] at h
        obtain ⟨h1, h2, h3, h4, h5⟩ := h
        subst h1 h2 h3
        exact ⟨rfl, rfl, by simp⟩
  · simp only [if_neg hp] at h
    rcases hg : idx.get? (cacheNamePos idx it.src).toNat with _ | ce <;>
        simp only [hg] at h
    · simp at h
    · repeat' split at h
      all_goals (try (exfalso; simp at h; done))
      all_goals simp only [StepRes.keep.injEq] at h
      all_goals obtain ⟨h1, h2, h3, h4, h5⟩ := h
      all_goals subst h1 h2 h3
      all_goals exact ⟨rfl, rfl, by simp⟩

theorem classifyOne_keep_facts (cfg : Cfg) (idx : List Entry) (disk : Disk)
    (sfd : List String) (it : Item) (it2 : Item) (exp : List Item)
    (add : Bool) (adv w : List String)
    (h : classifyOne cfg idx disk sfd it = StepRes.keep it2 exp add adv w) :
    (add = true → it2.recorded = true ∧ it2.dst = it.dst ∧
      sfd.contains it.dst = false) ∧
    (add = false → it2.recorded = it.recorded) ∧
    (∀ j ∈ exp, j.recorded = false) := by
  unfold classifyOne at h
  rcases hd : diskGet disk it.src with _ | t <;> simp only [hd] at h
  · obtain ⟨h1, h2, h3⟩ := missingSrcCase_keep_facts _ _ _ _ _ _ _ _ h
    subst h1
    exact ⟨by simp, fun _ => h2, h3⟩
  · split at h
    · simp at h
    · split at h
      · simp at h
      · split at h
        · obtain ⟨h1, h2, h3⟩ := dirCheckStep_keep_facts _ _ _ _ _ _ _ _ _ h
          subst h1
          exact ⟨by simp, fun _ => h2, h3⟩
        · obtain ⟨h1, h2, h3⟩ := singleFileCase_keep_facts _ _ _ _ _ _ _ _ _ _ h
          subst h3
          exact ⟨h1, h2, by simp⟩

theorem insertStr_contains_self (l : List String) (s : String) :
    (insertStr l s).contains s = true := by
  unfold insertStr
  split
  · assumption
  · simp

theorem insertStr_contains_mono (l : List String) (s d : String)
    (h : l.contains d = true) : (insertStr l s).contains d = true := by
  unfold insertStr
  split
  · exact h
  · simp only [List.contains_cons, h, Bool.or_true]

theorem recordedDests_append (l1 l2 : List Item) :
    recordedDests (l1 ++ l2) = recordedDests l1 ++ recordedDests l2 := by
  simp [recordedDests]

theorem recordedDests_one_true (it : Item) (h : it.recorded = true) :
    recordedDests [it] = [it.dst] := by
  simp [recordedDests, h]

theorem recordedDests_one_false (it : Item) (h : it.recorded = false) :
    recordedDests [it] = [] := by
  simp [recordedDests, h]

theorem classifyLoop_recorded_nodup (cfg : Cfg) (idx : List Entry)
    (disk : Disk) :
    ∀ fuel st st', classifyLoop cfg idx disk fuel st = Except.ok st' →
      (recordedDests st.done).Nodup →
      (∀ d ∈ recordedDests st.done, st.sfd.contains d = true) →
      (∀ j ∈ st.todo, j.recorded = false) →
      (recordedDests st'.done).Nodup := by
  intro fuel
  induction fuel with
  | zero =>
    intro st st' h hnd hsfd htodo
    rcases st with ⟨done, todo, sfd, led⟩
    cases todo with
    | nil =>
      simp only [classifyLoop] at h
      cases h
      exact hnd
    | cons a l =>
      simp only [classifyLoop] at h
      exact absurd h (by simp)
  | succ fuel ih =>
    intro st st' h hnd hsfd htodo
    rcases st with ⟨done, todo, sfd, led⟩
    cases todo with
    | nil =>
      simp only [classifyLoop] at h
      cases h
      exact hnd
    | cons it rest =>
      simp only [classifyLoop] at h
      split at h
      case h_1 it2 exp add adv warn hc =>
        obtain ⟨f1, f2, f3⟩ := classifyOne_keep_facts _ _ _ _ _ _ _ _ _ _ hc
        have hitr : it.recorded = false := htodo it (List.mem_cons_self _ _)
        have htodo2 : ∀ j ∈ rest ++ exp, j.recorded = false := by
          intro j hj
          rcases List.mem_append.mp hj with hj | hj
          · exact htodo j (List.mem_cons_of_mem _ hj)
          · exact f3 j hj
        cases add with
        | true =>
          obtain ⟨hrec, hdst, hcon⟩ := f1 rfl
          refine ih _ _ h ?_ ?_ htodo2
          · rw [recordedDests_append, recordedDests_one_true it2 hrec]
            simp only [List.nodup_append, List.nodup_singleton, true_and]
            refine ⟨hnd, ?_⟩
            intro d hd hd2
            have hthis := hsfd d hd
            simp only [List.mem_singleton] at hd2
            rw [hd2, hdst] at hthis
            rw [hcon] at hthis
            exact absurd hthis (by simp)
          · intro d hd
            rw [recordedDests_append, recordedDests_one_true it2 hrec] at hd
            rcases List.mem_append.mp hd with hd | hd
            · simp only [if_pos rfl]
              exact insertStr_contains_mono _ _ _ (hsfd d hd)
            · simp only [List.mem_singleton] at hd
              subst hd
              simp only [if_pos rfl]
              exact insertStr_contains_self _ _
        | false =>
          have hrec2 : it2.recorded = false := by rw [f2 rfl, hitr]
          refine ih _ _ h ?_ ?_ htodo2
          · rw [recordedDests_append, recordedDests_one_false it2 hrec2]
            simpa using hnd
          · intro d hd
            rw [recordedDests_append, recordedDests_one_false it2 hrec2] at hd
            simp only [List.append_nil] at hd
            have hne : ¬ (false = true) := by simp
            simp only [if_neg hne]
            exact hsfd d hd
      case h_2 msg warn hc =>
        split at h
        · exact ih _ _ h hnd hsfd (fun j hj => htodo j (List.mem_cons_of_mem _ hj))
        · exact absurd h (by simp)
      case h_3 adv hc =>
        exact ih _ _ h hnd hsfd (fun j hj => htodo j (List.mem_cons_of_mem _ hj))
      case h_4 f hc =>
        exact absurd h (by simp)

theorem lateChecks_multi_sound (cfg : Cfg) (sfd : List String) (it : Item)
    (w : List String)
    (h : lateChecks cfg sfd it =
      StepRes.rejectBad "multiple sources for the same target" w) :
    sfd.contains it.dst = true := by
  unfold lateChecks at h
  repeat' split at h
  all_goals simp_all

theorem dirCheckStep_multi_sound (cfg : Cfg) (idx : List Entry) (it : Item)
    (m2 : UMode) (w : List String)
    (h : dirCheckStep cfg idx it m2 =
      StepRes.rejectBad "multiple sources for the same target" w) :
    False := by
  unfold dirCheckStep indexRangeOfSameDir at h
  by_cases hp : 0 ≤ cacheNamePos idx it.src
  · simp only [if_pos hp] at h
    rcases hg : idx.get? (cacheNamePos idx it.src).toNat with _ | ce <;>
        simp only [hg] at h
    · simp at h
    · repeat' split at h
      all_goals simp at h
  · simp only [if_neg hp] at h
    repeat' split at h
    all_goals simp_all

theorem missingSrcCase_multi_sound (cfg : Cfg) (idx : List Entry) (it : Item)
    (w : List String)
    (h : missingSrcCase cfg idx it =
      StepRes.rejectBad "multiple sources for the same target" w) :
    False := by
  unfold missingSrcCase at h
  by_cases hp : cacheNamePos idx it.src < 0
  · simp only [if_pos hp] at h
    split at h
    · exact dirCheckStep_multi_sound _ _ _ _ _ h
    · split at h <;> simp at h
  · simp only [if_neg hp] at h
    rcases hg : idx.get? (cacheNamePos idx it.src).toNat with _ | ce <;>
        simp only [hg] at h
    · simp at h
    · repeat' split at h
      all_goals simp at h

theorem singleFileCase_multi_sound (cfg : Cfg) (idx : List Entry)
    (disk : Disk) (sfd : List String) (it : Item) (w : List String)
    (h : singleFileCase cfg idx disk sfd it =
      StepRes.rejectBad "multiple sources for the same target" w) :
    sfd.contains it.dst = true := by
  unfold singleFileCase at h
  rcases hf : fileExists idx it.src with _ | ce <;> simp only [hf] at h
  · simp at h
  · repeat' split at h
    all_goals first
      | (exfalso; simp at h; done)
      | exact lateChecks_multi_sound _ _ _ _ h

theorem classifyOne_multi_sound (cfg : Cfg) (idx : List Entry) (disk : Disk)
    (sfd : List String) (it : Item) (w : List String)
    (h : classifyOne cfg idx disk sfd it =
      StepRes.rejectBad "multiple sources for the same target" w) :
    sfd.contains it.dst = true := by
  unfold classifyOne at h
  rcases hd : diskGet disk it.src with _ | t <;> simp only [hd] at h
  · exact (missingSrcCase_multi_sound _ _ _ _ h).elim
  · split at h
    · simp at h
    · split at h
      · simp at h
      · split at h
        · exact (dirCheckStep_multi_sound _ _ _ _ _ h).elim
        · exact singleFileCase_multi_sound cfg idx disk sfd it w h

theorem mv_recorded_destinations_unique (cfg : Cfg) (idx : List Entry)
    (disk : Disk) (fuel : Nat) (items : List Item) (st : CState)
    (hinit : ∀ j ∈ items, j.recorded = false)
    (hrun : classifyLoop cfg idx disk fuel ⟨[], items, [], []⟩ =
      Except.ok st) :
    (recordedDests st.done).Nodup ∧
    (∀ sfd2 it w, classifyOne cfg idx disk sfd2 it =
        StepRes.rejectBad "multiple sources for the same target" w →
      sfd2.contains it.dst = true) := by
  refine ⟨classifyLoop_recorded_nodup cfg idx disk fuel _ st hrun
    (by simp [recordedDests]) (by simp [recordedDests]) hinit, ?_⟩
  intro sfd2 it w h
  exact classifyOne_multi_sound _ _ _ _ _ _ h

/-- Witness for C2 at a concrete input: the two-sparse-sources scenario
satisfies the amended claim (its surviving items bypassed the recording,
so the recorded destinations are trivially unique, and the
`multiple sources` rejection is sound). -/
theorem mv_recorded_destinations_unique_witness :
    (recordedDests stC2.done).Nodup ∧
    (∀ sfd2 it w, classifyOne cfgSparse idxTwoSparse diskT sfd2 it =
        StepRes.rejectBad "multiple sources for the same target" w →
      sfd2.contains it.dst = true) :=
  mv_recorded_destinations_unique cfgSparse idxTwoSparse diskT 10
    [{ src := "p/f", dst := "t/f" }, { src := "q/f", dst := "t/f" }] stC2
    (by decide) rfl

theorem charsLt_of_charsPre (p : List Char) :
    ∀ s, charsPre p s = true → charsLt s p = false := by
  induction p with
  | nil =>
    intro s _
    cases s <;> rfl
  | cons c p2 ih =>
    intro s hp
    cases s with
    | nil => simp [charsPre] at hp
    | cons d s2 =>
      simp only [charsPre, Bool.and_eq_true, beq_iff_eq] at hp
      obtain ⟨rfl, hp2⟩ := hp
      simp only [charsLt, Bool.or_eq_false_iff, Bool.and_eq_false_iff]
      constructor
      · simp [lt_irrefl]
      · right
        exact ih s2 hp2

theorem charsLt_trans : ∀ a b c : List Char, charsLt a b = true →
    charsLt b c = true → charsLt a c = true := by
  intro a
  induction a with
  | nil =>
    intro b c hab hbc
    cases b with
    | nil => simp [charsLt] at hab
    | cons y ys =>
      cases c with
      | nil => simp [charsLt] at hbc
      | cons z zs => rfl
  | cons x xs ih =>
    intro b c hab hbc
    cases b with
    | nil => simp [charsLt] at hab
    | cons y ys =>
      cases c with
      | nil => simp [charsLt] at hbc
      | cons z zs =>
        simp only [charsLt, Bool.or_eq_true, Bool.and_eq_true, beq_iff_eq,
          decide_eq_true_eq] at hab hbc ⊢
        rcases hab with hab | ⟨rfl, hab⟩
        · rcases hbc with hbc | ⟨rfl, hbc⟩
          · exact Or.inl (lt_trans hab hbc)
          · exact Or.inl hab
        · rcases hbc with hbc | ⟨rfl, hbc⟩
          · exact Or.inl hbc
          · exact Or.inr ⟨rfl, ih ys zs hab hbc⟩

theorem charsPre_between (p : List Char) :
    ∀ e x, charsPre p x = true → charsLt e x = true →
      charsLt e p = false → charsPre p e = false → False := by
  induction p with
  | nil =>
    intro e x _ _ _ h4
    simp [charsPre] at h4
  | cons c p2 ih =>
    intro e x h1 h2 h3 h4
    cases x with
    | nil => simp [charsPre] at h1
    | cons d xs =>
      simp only [charsPre, Bool.and_eq_true, beq_iff_eq] at h1
      obtain ⟨rfl, h1⟩ := h1
      cases e with
      | nil => simp [charsLt] at h3
      | cons f es =>
        simp only [charsLt, Bool.or_eq_true, Bool.and_eq_true, beq_iff_eq,
          decide_eq_true_eq] at h2
        simp only [charsLt, Bool.or_eq_false_iff, Bool.and_eq_false_iff,
          decide_eq_false_iff_not] at h3
        obtain ⟨h3a, h3b⟩ := h3
        rcases h2 with h2 | ⟨rfl, h2⟩
        · exact h3a h2
        · simp only [charsPre, Bool.and_eq_false_iff] at h4
          rcases h3b with h3b | h3b
          · simp at h3b
          · rcases h4 with h4 | h4
            · simp at h4
            · exact ih es xs h1 h2 h3b h4

theorem strLt_of_strPre (p s : String) (h : strPre p s = true) :
    strLt s p = false := charsLt_of_charsPre p.data s.data h

theorem strLt_trans (a b c : String) (h1 : strLt a b = true)
    (h2 : strLt b c = true) : strLt a c = true :=
  charsLt_trans a.data b.data c.data h1 h2

theorem strPre_between (p e x : String) (h1 : strPre p x = true)
    (h2 : strLt e x = true) (h3 : strLt e p = false)
    (h4 : strPre p e = false) : False :=
  charsPre_between p.data e.data x.data h1 h2 h3 h4

theorem take_len_takeWhile (p : Entry → Bool) (l : List Entry) :
    l.take (l.takeWhile p).length = l.takeWhile p := by
  induction l with
  | nil => rfl
  | cons x xs ih =>
    cases hp : p x
    · simp [List.takeWhile_cons, hp]
    · simp [List.takeWhile_cons, hp, List.take_succ_cons, ih]

theorem sorted_range_filter (ws : String) :
    ∀ idx : List Entry, SortedIdx idx →
    (idx.drop ((idx.filter (fun e => strLt e.name ws)).length)).takeWhile
        (fun e => strPre ws e.name)
      = idx.filter (fun e => strPre ws e.name) := by
  intro idx
  induction idx with
  | nil => intro _; rfl
  | cons e tl ih =>
    intro hs
    have hrel : ∀ x ∈ tl, strLt e.name x.name = true :=
      (List.pairwise_cons.mp hs).1
    have hstl : SortedIdx tl := (List.pairwise_cons.mp hs).2
    cases hlt : strLt e.name ws with
    | true =>
      have hpre : strPre ws e.name = false := by
        cases hp : strPre ws e.name
        · rfl
        · rw [strLt_of_strPre ws e.name hp] at hlt
          exact absurd hlt (by simp)
      simp only [List.filter_cons, hlt, if_pos, List.length_cons,
        List.drop_succ_cons, ih hstl, hpre]
      simp [hpre]
    | false =>
      have hltl : tl.filter (fun x => strLt x.name ws) = [] := by
        rw [List.filter_eq_nil_iff]
        intro x hx hpx
        have h2 := strLt_trans e.name x.name ws (hrel x hx) hpx
        rw [h2] at hlt
        exact absurd hlt (by simp)
      have hdrop0 : (e :: tl).filter (fun x => strLt x.name ws) = [] := by
        simp [List.filter_cons, hlt, hltl]
      cases hpre : strPre ws e.name with
      | true =>
        have htl : tl.takeWhile (fun x => strPre ws x.name) =
            tl.filter (fun x => strPre ws x.name) := by
          have := ih hstl
          rw [hltl] at this
          simpa using this
        simp [hdrop0, List.takeWhile_cons, hpre, htl, List.filter_cons]
      | false =>
        have htlf : tl.filter (fun x => strPre ws x.name) = [] := by
          rw [List.filter_eq_nil_iff]
          intro x hx hpx
          exact strPre_between ws e.name x.name hpx (hrel x hx) hlt hpre
        simp [hdrop0, List.takeWhile_cons, hpre, htlf, List.filter_cons]

theorem cacheNamePos_neg_toNat (idx : List Entry) (s : String)
    (h : cacheNamePos idx s < 0) :
    (-(cacheNamePos idx s) - 1).toNat =
      (idx.filter (fun e => strLt e.name s)).length := by
  unfold cacheNamePos at h ⊢
  cases hf : idx.findIdx? (fun e => e.name == s && e.stage == 0) with
  | some i =>
    simp only [hf] at h
    exact absurd h (not_lt.mpr (Int.ofNat_nonneg i))
  | none =>
    simp only [hf] at h ⊢
    have h2 : -(-(Int.ofNat
        (idx.filter (fun e => strLt e.name s)).length) - 1) - 1 =
        Int.ofNat (idx.filter (fun e => strLt e.name s)).length := by ring
    rw [h2]
    rfl

theorem dirCheckStep_expansion (cfg : Cfg) (idx : List Entry) (it : Item)
    (mode2 : UMode) (hsort : SortedIdx idx)
    (hself : cacheNamePos idx it.src < 0)
    (hws : cacheNamePos idx (addSlash it.src) < 0) :
    dirCheckStep cfg idx it mode2 =
      (if idx.filter (fun e => strPre (addSlash it.src) e.name) = []
       then StepRes.rejectBad "source directory is empty" []
       else
         StepRes.keep
           { it with mode := { mode2 with workingDirectory := true } }
           ((idx.filter (fun e => strPre (addSlash it.src) e.name)).map
             (fun e =>
               { src := e.name
                 dst := addSlash it.dst ++ strDrop e.name (strLen it.src + 1)
                 mode := if e.skipWT then { sparse := true }
                   else { idxOnly := true }
                 subGitfile := none
                 recorded := false }))
           false [] []) := by
  unfold dirCheckStep indexRangeOfSameDir expandItems
  rw [if_neg (by omega : ¬ (0 ≤ cacheNamePos idx it.src))]
  rw [if_neg (by omega : ¬ (0 ≤ cacheNamePos idx (addSlash it.src)))]
  simp only [cacheNamePos_neg_toNat idx (addSlash it.src) hws,
    Nat.add_sub_cancel_left]
  rw [take_len_takeWhile]
  rw [sorted_range_filter (addSlash it.src) idx hsort]
  by_cases hz : idx.filter (fun e => strPre (addSlash it.src) e.name) = []
  · simp [hz]
  · have hlen : ¬ ((idx.filter
        (fun e => strPre (addSlash it.src) e.name)).length < 1) := by
      rcases hfil : idx.filter (fun e => strPre (addSlash it.src) e.name) with
          _ | ⟨a, l⟩
      · exact absurd hfil hz
      · rw [hfil]
        simp
    rw [if_neg hlen, if_neg hz]

theorem mv_directory_expansion_range (cfg : Cfg) (idx : List Entry)
    (disk : Disk) (sfd : List String) (it : Item)
    (hsort : SortedIdx idx)
    (hs : diskGet disk it.src = some FType.dir)
    (hsub : subpathCond it.src it.dst = false)
    (hdd : diskGet disk it.dst = none)
    (hself : cacheNamePos idx it.src < 0)
    (hws : cacheNamePos idx (addSlash it.src) < 0) :
    classifyOne cfg idx disk sfd it =
      (if idx.filter (fun e => strPre (addSlash it.src) e.name) = []
       then StepRes.rejectBad "source directory is empty" []
       else
         StepRes.keep
           { it with mode := { it.mode with workingDirectory := true } }
           ((idx.filter (fun e => strPre (addSlash it.src) e.name)).map
             (fun e =>
               { src := e.name
                 dst := addSlash it.dst ++ strDrop e.name (strLen it.src + 1)
                 mode := if e.skipWT then { sparse := true }
                   else { idxOnly := true }
                 subGitfile := none
                 recorded := false }))
           false [] []) := by
  unfold classifyOne
  simp only [hs, hsub, hdd, Option.isSome_none, Bool.and_false,
    Bool.false_eq_true, if_false, beq_self_eq_true, Bool.and_true, if_true]
  exact dirCheckStep_expansion cfg idx it it.mode hsort hself hws

theorem mv_directory_expansion_range_witness :
    classifyOne ({} : Cfg) idxDirTwo [("d", FType.dir)] [] itD =
      (if idxDirTwo.filter (fun e => strPre (addSlash itD.src) e.name) = []
       then StepRes.rejectBad "source directory is empty" []
       else
         StepRes.keep
           { itD with mode := { itD.mode with workingDirectory := true } }
           ((idxDirTwo.filter (fun e => strPre (addSlash itD.src) e.name)).map
             (fun e =>
               { src := e.name
                 dst := addSlash itD.dst ++ strDrop e.name (strLen itD.src + 1)
                 mode := if e.skipWT then { sparse := true }
                   else { idxOnly := true }
                 subGitfile := none
                 recorded := false }))
           false [] []) :=
  mv_directory_expansion_range {} idxDirTwo [("d", FType.dir)] [] itD
    (by unfold SortedIdx; decide) rfl rfl rfl (by decide) (by decide)

theorem fileExists_name (l : List Entry) (a : String) (e : Entry)
    (h : fileExists l a = some e) : e.name = a := by
  have h2 := List.find?_some h
  simpa using h2

theorem eraseExtract_of_fileExists (a : String) :
    ∀ l : List Entry, ∀ e, fileExists l a = some e → e.stage = 0 →
      ∃ r, eraseExtract a l = some (e, r) := by
  intro l
  induction l with
  | nil => intro e h _; simp [fileExists] at h
  | cons x xs ih =>
    intro e h hst
    simp only [fileExists, List.find?_cons] at h
    cases hx : (x.name == a) with
    | true =>
      rw [hx] at h
      injection h with h
      subst h
      exact ⟨xs, by simp [eraseExtract, hx, hst]⟩
    | false =>
      rw [hx] at h
      obtain ⟨r, hr⟩ := ih e h hst
      exact ⟨x :: r, by simp [eraseExtract, hx, hr]⟩

theorem eraseExtract_split (a : String) :
    ∀ l : List Entry, ∀ e r, eraseExtract a l = some (e, r) →
      ∃ p q, l = p ++ e :: q ∧ r = p ++ q ∧ e.name = a ∧ e.stage = 0 := by
  intro l
  induction l with
  | nil => intro e r h; simp [eraseExtract] at h
  | cons x xs ih =>
    intro e r h
    simp only [eraseExtract] at h
    cases hx : (x.name == a && x.stage == 0) with
    | true =>
      rw [hx] at h
      simp only [if_true] at h
      injection h with h
      injection h with h1 h2
      subst h1
      subst h2
      simp only [Bool.and_eq_true, beq_iff_eq] at hx
      exact ⟨[], xs, rfl, rfl, hx.1, hx.2⟩
    | false =>
      rw [hx] at h
      simp only [Bool.false_eq_true, if_false] at h
      cases he : eraseExtract a xs with
      | none => rw [he] at h; simp at h
      | some pr =>
        rw [he] at h
        rcases pr with ⟨e2, r2⟩
        simp only [] at h
        injection h with h
        injection h with h1 h2
        subst h1
        obtain ⟨p, q, hl, hr, hn, hs⟩ := ih e2 r2 he
        refine ⟨x :: p, q, by rw [hl]; rfl, ?_, hn, hs⟩
        rw [← h2, hr]
        rfl

theorem insertEntry_extract (b : String) (e : Entry) (he : e.name = b)
    (hst : e.stage = 0) :
    ∀ l : List Entry, (∀ x ∈ l, x.name ≠ b) →
      eraseExtract b (insertEntry e l) = some (e, l) := by
  intro l
  induction l with
  | nil =>
    intro _
    simp [insertEntry, eraseExtract, he, hst]
  | cons x xs ih =>
    intro hl
    have hx : x.name ≠ b := hl x (List.mem_cons_self _ _)
    have hxb : (x.name == b) = false := beq_eq_false_iff_ne.mpr hx
    simp only [insertEntry]
    cases hlt : entLt x e with
    | true =>
      simp only [if_pos]
      simp only [eraseExtract, hxb, Bool.false_and, Bool.false_eq_true,
        if_false, ih (fun y hy => hl y (List.mem_cons_of_mem _ hy))]
    | false =>
      have hxe : (x.name == e.name) = false := by
        rw [he]
        exact hxb
      simp only [Bool.false_eq_true, if_false, hxe, Bool.false_and]
      simp [eraseExtract, he, hst]

theorem insertEntry_find (b : String) (e : Entry) (he : e.name = b) :
    ∀ l : List Entry, (∀ x ∈ l, x.name ≠ b) →
      fileExists (insertEntry e l) b = some e := by
  intro l
  induction l with
  | nil =>
    intro _
    simp [insertEntry, fileExists, he]
  | cons x xs ih =>
    intro hl
    have hx : x.name ≠ b := hl x (List.mem_cons_self _ _)
    have hxb : (x.name == b) = false := beq_eq_false_iff_ne.mpr hx
    simp only [insertEntry]
    cases hlt : entLt x e with
    | true =>
      simp only [if_pos]
      simp only [fileExists, List.find?_cons, hxb]
      exact ih (fun y hy => hl y (List.mem_cons_of_mem _ hy))
    | false =>
      have hxe : (x.name == e.name) = false := by
        rw [he]
        exact hxb
      simp only [Bool.false_eq_true, if_false, hxe, Bool.false_and]
      simp [fileExists, List.find?_cons, he]

theorem entry_set_name_self (e : Entry) (a : String) (h : e.name = a) :
    { e with name := a } = e := by
  cases e with
  | mk n o m st k =>
    simp only at h
    subst h
    rfl

theorem names_disjoint_of_nodup (p q : List Entry) (e : Entry)
    (hnodup : (((p ++ e :: q)).map Entry.name).Nodup) :
    ∀ x ∈ p ++ q, x.name ≠ e.name := by
  rw [List.map_append, List.map_cons, List.nodup_append] at hnodup
  obtain ⟨h1, h2, h3⟩ := hnodup
  rw [List.nodup_cons] at h2
  intro x hx hcon
  rcases List.mem_append.mp hx with hx | hx
  · have hmem : x.name ∈ p.map Entry.name := List.mem_map_of_mem _ hx
    have := h3 hmem
    rw [hcon] at this
    exact this (List.mem_cons_self _ _)
  · have hmem : x.name ∈ q.map Entry.name := List.mem_map_of_mem _ hx
    rw [hcon] at hmem
    exact h2.1 hmem

theorem charsPre_exists : ∀ u w : List Char, charsPre u w = true →
    ∃ t, w = u ++ t := by
  intro u
  induction u with
  | nil => intro w _; exact ⟨w, rfl⟩
  | cons c u2 ih =>
    intro w h
    cases w with
    | nil => simp [charsPre] at h
    | cons d w2 =>
      simp only [charsPre, Bool.and_eq_true, beq_iff_eq] at h
      obtain ⟨rfl, h⟩ := h
      obtain ⟨t, rfl⟩ := ih w2 h
      exact ⟨t, rfl⟩

theorem charsPre_append : ∀ u t : List Char, charsPre u (u ++ t) = true := by
  intro u
  induction u with
  | nil => intro t; rfl
  | cons c u2 ih => intro t; simp [charsPre, ih]

theorem strPre_suffix_ne_dst (src dst p : String)
    (h : strPre (src ++ "/") p = true) :
    ((dst ++ strDrop p (strLen src)) == dst) = false := by
  obtain ⟨t, ht⟩ := charsPre_exists (src ++ "/").data p.data h
  apply beq_eq_false_iff_ne.mpr
  intro hcon
  have hdata : (dst ++ strDrop p (strLen src)).data = dst.data := by
    rw [hcon]
  have hd2 : (dst ++ strDrop p (strLen src)).data =
      dst.data ++ p.data.drop (strLen src) := by
    cases dst
    cases p
    rfl
  rw [hd2] at hdata
  have hlen := congrArg List.length hdata
  rw [List.length_append] at hlen
  have hplen : p.data.length ≥ strLen src + 1 := by
    have := congrArg List.length ht
    rw [List.length_append] at this
    have hsl : (src ++ "/").data.length = strLen src + 1 := by
      cases src
      simp [strLen]
    omega
  rw [List.length_drop] at hlen
  have hdl : strLen src = src.data.length := rfl
  rw [hdl] at hlen hplen
  omega

theorem strPre_suffix_ne_src (src dst p : String)
    (hpre : strPre (dst ++ "/") src = false)
    (h : strPre (src ++ "/") p = true) :
    ((dst ++ strDrop p (strLen src)) == src) = false := by
  obtain ⟨t, ht⟩ := charsPre_exists (src ++ "/").data p.data h
  apply beq_eq_false_iff_ne.mpr
  intro hcon
  have hdrop : p.data.drop (strLen src) = (Char.ofNat 47) :: t ∨ True := Or.inr trivial
  have hd2 : (dst ++ strDrop p (strLen src)).data =
      dst.data ++ p.data.drop (strLen src) := by
    cases dst
    cases p
    rfl
  have hsplit : p.data.drop (strLen src) = '/' :: t := by
    rw [ht]
    have : (src ++ "/").data = src.data ++ ['/'] := by
      cases src
      rfl
    rw [this, List.append_assoc]
    have hdl : src.data.length = strLen src := rfl
    rw [← hdl, List.drop_left]
    rfl
  have hsrc : src.data = dst.data ++ '/' :: t := by
    rw [← hcon, hd2, hsplit]
  have : strPre (dst ++ "/") src = true := by
    unfold strPre
    have hdd : (dst ++ "/").data = dst.data ++ ['/'] := by
      cases dst
      rfl
    rw [hdd, hsrc]
    have : dst.data ++ '/' :: t = (dst.data ++ ['/']) ++ t := by
      rw [List.append_assoc]
      rfl
    rw [this]
    exact charsPre_append _ _
  rw [this] at hpre
  exact absurd hpre (by simp)

theorem diskGet_cons (p : String) (u : FType) (tl : Disk) (q : String) :
    diskGet ((p, u) :: tl) q = if (p == q) = true then some u
      else diskGet tl q := by
  simp only [diskGet, List.find?_cons]
  cases h : (p == q) <;> simp [h, diskGet]

theorem renameFS_eq (d : Disk) (src dst : String) (τ : FType)
    (h : diskGet d src = some τ) :
    renameFS d src dst = some (d.filterMap (fun en =>
      if en.fst == src then some (dst, en.snd)
      else if strPre (src ++ "/") en.fst then
        some (dst ++ strDrop en.fst (strLen src), en.snd)
      else if en.fst == dst || strPre (dst ++ "/") en.fst then none
      else some en)) := by
  unfold renameFS
  rw [h]

theorem renameMap_dst (src dst : String) :
    ∀ d : Disk, ∀ τ, diskGet d src = some τ →
      diskGet (d.filterMap (fun en =>
        if en.fst == src then some (dst, en.snd)
        else if strPre (src ++ "/") en.fst then
          some (dst ++ strDrop en.fst (strLen src), en.snd)
        else if en.fst == dst || strPre (dst ++ "/") en.fst then none
        else some en)) dst = some τ := by
  intro d
  induction d with
  | nil => intro τ h; simp [diskGet] at h
  | cons en tl ih =>
    intro τ h
    rcases en with ⟨p, u⟩
    rw [diskGet_cons] at h
    by_cases hp : (p == src) = true
    · rw [if_pos hp] at h
      injection h with h
      subst h
      simp only [List.filterMap_cons, hp, if_pos]
      rw [diskGet_cons]
      simp
    · rw [if_neg hp] at h
      have h2 := ih τ h
      have hp2 : (p == src) = false := by
        cases hpv : (p == src)
        · rfl
        · exact absurd hpv hp
      simp only [List.filterMap_cons, hp2, Bool.false_eq_true, if_false]
      cases hpre : strPre (src ++ "/") p with
      | true =>
        simp only [if_pos]
        rw [diskGet_cons]
        rw [if_neg (by rw [strPre_suffix_ne_dst src dst p hpre]; simp)]
        exact h2
      | false =>
        simp only [Bool.false_eq_true, if_false]
        cases hdrop : (p == dst || strPre (dst ++ "/") p) with
        | true =>
          simp only [if_pos]
          exact h2
        | false =>
          simp only [Bool.false_eq_true, if_false]
          rw [diskGet_cons]
          have hpd : (p == dst) = false := by
            cases hv : (p == dst)
            · rfl
            · rw [hv] at hdrop
              simp at hdrop
          rw [if_neg (by rw [hpd]; simp)]
          exact h2

theorem renameMap_src_none (src dst : String)
    (hne : (dst == src) = false)
    (hpre : strPre (dst ++ "/") src = false) :
    ∀ d : Disk,
      diskGet (d.filterMap (fun en =>
        if en.fst == src then some (dst, en.snd)
        else if strPre (src ++ "/") en.fst then
          some (dst ++ strDrop en.fst (strLen src), en.snd)
        else if en.fst == dst || strPre (dst ++ "/") en.fst then none
        else some en)) src = none := by
  intro d
  induction d with
  | nil => rfl
  | cons en tl ih =>
    rcases en with ⟨p, u⟩
    cases hp : (p == src) with
    | true =>
      simp only [List.filterMap_cons, hp, if_pos]
      rw [diskGet_cons]
      rw [if_neg (by rw [hne]; simp)]
      exact ih
    | false =>
      simp only [List.filterMap_cons, hp, Bool.false_eq_true, if_false]
      cases hpre2 : strPre (src ++ "/") p with
      | true =>
        simp only [if_pos]
        rw [diskGet_cons]
        rw [if_neg (by rw [strPre_suffix_ne_src src dst p hpre hpre2]; simp)]
        exact ih
      | false =>
        simp only [Bool.false_eq_true, if_false]
        cases hdrop : (p == dst || strPre (dst ++ "/") p) with
        | true =>
          simp only [if_pos]
          exact ih
        | false =>
          simp only [Bool.false_eq_true, if_false]
          rw [diskGet_cons]
          rw [if_neg (by rw [hp]; simp)]
          exact ih

theorem runMv_single_file (cfg : Cfg) (idx : List Entry) (disk : Disk)
    (a b : String) (e : Entry) (r : List Entry)
    (hso : cfg.showOnly = false) (hig : cfg.ignoreSparse = true)
    (hpo : cfg.persistOk = true)
    (hbne : (b == "") = false) (hslb : endsSlash b = false)
    (hda : diskGet disk a = some FType.reg) (hdb : diskGet disk b = none)
    (hsub : subpathCond a b = false)
    (hce : fileExists idx a = some e) (hst : e.stage = 0)
    (her : eraseExtract a idx = some (e, r)) :
    ∃ d1, renameFS disk a b = some d1 ∧
      runMv cfg idx disk 1 [a] b =
        Except.ok { exitCode := 0
                    disk := d1
                    idxL := insertEntry { e with name := b } r
                    ledger := []
                    hint := false } := by
  have hren := renameFS_eq disk a b FType.reg hda
  refine ⟨_, hren, ?_⟩
  have hcls : classifyOne cfg idx disk [] ({ src := a, dst := b } : Item) =
      StepRes.keep { src := a, dst := b, recorded := true } [] true [] [] := by
    unfold classifyOne singleFileCase lateChecks
    simp only [hda, hsub, Bool.false_eq_true, if_false, hce, hst, hdb, hslb,
      hig, Bool.not_true, Bool.false_and, beq_self_eq_true]
    simp
  have hloop : classifyLoop cfg idx disk 1
      ⟨[], [({ src := a, dst := b } : Item)], [], []⟩ =
      Except.ok ⟨[{ src := a, dst := b, recorded := true }], [], [b], []⟩ := by
    rw [classifyLoop]
    simp [hcls, insertStr, classifyLoop]
  have happ : applyOne cfg
      { disk := disk, idxL := idx, gitmodulesModified := false }
      ({ src := a, dst := b, recorded := true } : Item) =
      Except.ok
        { disk := disk.filterMap (fun en =>
            if en.fst == a then some (b, en.snd)
            else if strPre (a ++ "/") en.fst then
              some (b ++ strDrop en.fst (strLen a), en.snd)
            else if en.fst == b || strPre (b ++ "/") en.fst then none
            else some en)
          idxL := insertEntry { e with name := b } r
          gitmodulesModified := false } := by
    unfold applyOne
    simp only [hso, Bool.false_eq_true, if_false]
    simp only [hren]
    simp [renameInIndex, her]
  have hcd : computeDests disk [a] b = Except.ok [b] := by
    unfold computeDests
    simp [hbne, hdb]
  unfold runMv
  rw [hcd]
  simp only [List.zipWith]
  unfold runFromItems runFromState
  rw [hloop]
  simp only [List.isEmpty_nil, Bool.not_false, Bool.and_false,
    Bool.false_eq_true, if_false, Bool.and_true]
  unfold applyAll
  rw [happ]
  unfold applyAll
  simp [hpo]

theorem mv_round_trip_restores_entry (cfg : Cfg) (idx : List Entry)
    (disk : Disk) (a b : String) (e : Entry)
    (hso : cfg.showOnly = false) (hig : cfg.ignoreSparse = true)
    (hpo : cfg.persistOk = true)
    (hane : (a == "") = false) (hbne : (b == "") = false)
    (hsla : endsSlash a = false) (hslb : endsSlash b = false)
    (hsub1 : subpathCond a b = false) (hsub2 : subpathCond b a = false)
    (hda : diskGet disk a = some FType.reg) (hdb : diskGet disk b = none)
    (hce : fileExists idx a = some e) (hst : e.stage = 0)
    (hnodup : (idx.map Entry.name).Nodup)
    (hfb : ∀ x ∈ idx, x.name ≠ b) :
    ∃ o1 o2, runMv cfg idx disk 1 [a] b = Except.ok o1 ∧ o1.exitCode = 0 ∧
      runMv cfg o1.idxL o1.disk 1 [b] a = Except.ok o2 ∧ o2.exitCode = 0 ∧
      fileExists o2.idxL a = some e := by
  obtain ⟨r, her⟩ := eraseExtract_of_fileExists a idx e hce hst
  obtain ⟨d1, hren1, hrun1⟩ := runMv_single_file cfg idx disk a b e r hso hig
    hpo hbne hslb hda hdb hsub1 hce hst her
  obtain ⟨p, q, hsplit, hreq, hname, _⟩ := eraseExtract_split a idx e r her
  have hrsub : ∀ x ∈ r, x ∈ idx := by
    intro x hx
    rw [hreq] at hx
    rcases List.mem_append.mp hx with hx | hx
    · rw [hsplit]
      exact List.mem_append_left _ hx
    · rw [hsplit]
      exact List.mem_append_right _ (List.mem_cons_of_mem _ hx)
  have hrb : ∀ x ∈ r, x.name ≠ b := fun x hx => hfb x (hrsub x hx)
  have hra : ∀ x ∈ r, x.name ≠ a := by
    have hd := names_disjoint_of_nodup p q e (by rw [← hsplit]; exact hnodup)
    intro x hx
    rw [hreq] at hx
    rw [← hname]
    exact hd x hx
  have hsub2a : (a == b) = false := by
    cases hv : (a == b)
    · rfl
    · unfold subpathCond at hsub2
      rw [hv] at hsub2
      simp at hsub2
  have hsub2b : strPre (b ++ "/") a = false := by
    cases hv : strPre (b ++ "/") a
    · rfl
    · unfold subpathCond at hsub2
      rw [hv] at hsub2
      simp at hsub2
  have hd1eq : d1 = disk.filterMap (fun en =>
      if en.fst == a then some (b, en.snd)
      else if strPre (a ++ "/") en.fst then
        some (b ++ strDrop en.fst (strLen a), en.snd)
      else if en.fst == b || strPre (b ++ "/") en.fst then none
      else some en) := by
    have h2 := renameFS_eq disk a b FType.reg hda
    rw [hren1] at h2
    injection h2
  have hba : (b == a) = false := by
    apply beq_eq_false_iff_ne.mpr
    exact Ne.symm (beq_eq_false_iff_ne.mp hsub2a)
  have hd1b : diskGet d1 b = some FType.reg := by
    rw [hd1eq]
    exact renameMap_dst a b disk FType.reg hda
  have hd1a : diskGet d1 a = none := by
    rw [hd1eq]
    exact renameMap_src_none a b hba hsub2b disk
  have hfind1 : fileExists (insertEntry { e with name := b } r) b =
      some { e with name := b } :=
    insertEntry_find b { e with name := b } rfl r hrb
  have her2 : eraseExtract b (insertEntry { e with name := b } r) =
      some ({ e with name := b }, r) :=
    insertEntry_extract b { e with name := b } rfl hst r hrb
  obtain ⟨d2, hren2, hrun2⟩ := runMv_single_file cfg
    (insertEntry { e with name := b } r) d1 b a { e with name := b } r hso
    hig hpo hane hsla hd1b hd1a hsub2 hfind1 hst her2
  have hxx : ({ { e with name := b } with name := a } : Entry) = e := by
    cases e with
    | mk n o m stg k =>
      simp only at hname
      subst hname
      rfl
  have hfinal : fileExists
      (insertEntry { { e with name := b } with name := a } r) a = some e := by
    rw [hxx]
    exact insertEntry_find a e hname r hra
  exact ⟨_, _, hrun1, rfl, hrun2, rfl, hfinal⟩

theorem mv_round_trip_restores_entry_witness :
    ∃ o1 o2, runMv cfgSparse [⟨"a", 7, 33188, 0, false⟩] [("a", FType.reg)] 1
        ["a"] "b" = Except.ok o1 ∧ o1.exitCode = 0 ∧
      runMv cfgSparse o1.idxL o1.disk 1 ["b"] "a" = Except.ok o2 ∧
      o2.exitCode = 0 ∧
      fileExists o2.idxL "a" = some ⟨"a", 7, 33188, 0, false⟩ :=
  mv_round_trip_restores_entry cfgSparse [⟨"a", 7, 33188, 0, false⟩]
    [("a", FType.reg)] "a" "b" ⟨"a", 7, 33188, 0, false⟩ rfl rfl rfl
    (by decide) (by decide) (by decide) (by decide) (by decide) (by decide)
    rfl rfl rfl rfl (by decide) (by decide)

end GitMv
